import Mathlib

/-!
Verification of `src/update_spindle_speed.py`, a batch rewriter that
normalises the spindle-speed command of `.tap` G-code files.

File contents are modelled as `List Char` (the decoded text of the file).
Python's `for line in file` iteration is modelled by `splitLines`, which
splits the text into chunks each keeping its trailing `'\n'` (the final
chunk may lack one).  `update_file_spindle_speed` is the line transformation
of the Python function of the same name; the `Option` result of
`processLines` distinguishes the early `return` (skip, no write) from a
write of the accumulated lines.  The directory walker
`update_spindle_speed` is modelled over an abstract directory tree whose
directories carry names, because the recursive glob of line 41 matches
directories as well as files, and matches names case-insensitively on
Windows (the program's platform, given its top-level `msvcrt` import),
while the per-file `endswith(".tap")` test of line 45 is a case-sensitive
check on regular files only.  A walker run returns `Except`: the error
case models the `ZeroDivisionError` of the progress computation and carries
the state reached after the rewriter invocation that precedes it.
-/

/-- Python's substring test `needle in hay` on text. -/
def containsSub (needle : List Char) : List Char → Bool
  | [] => needle.isEmpty
  | c :: cs => needle.isPrefixOf (c :: cs) || containsSub needle cs

/-- `line.startswith("S")` from line 25 of the source. -/
def startsWithS : List Char → Bool
  | [] => false
  | c :: _ => c == 'S'

/-- `"S{} ".format(spindle_speed)`, the text of the skip check (line 27). -/
def matchText (speed : List Char) : List Char :=
  'S' :: (speed ++ [' '])

/-- `"S{} M3\n".format(spindle_speed)`, the replacement line (line 32). -/
def replacementLine (speed : List Char) : List Char :=
  'S' :: (speed ++ [' ', 'M', '3', '\n'])

/-- Splits text into Python-iteration lines, each keeping its trailing
newline; the final line may lack one.  Empty text gives no lines. -/
def splitLines : List Char → List (List Char)
  | [] => []
  | c :: cs =>
    if c = '\n' then ['\n'] :: splitLines cs
    else
      match splitLines cs with
      | [] => [[c]]
      | l :: ls => (c :: l) :: ls

/-- The loop of `update_file_spindle_speed` (lines 22-36): `none` models the
early `return` at line 29 (skip, nothing written), `some ls` the list of
lines that would be written back. -/
def processLines (speed : List Char) : List (List Char) → Option (List (List Char))
  | [] => some []
  | l :: ls =>
    if startsWithS l then
      if containsSub (matchText speed) l then none
      else some (replacementLine speed :: ls)
    else (processLines speed ls).map (fun r => l :: r)

/-- Resulting file content of `update_file_spindle_speed`: unchanged on the
skip path, otherwise the concatenation of the written lines. -/
def update_file_spindle_speed (speed content : List Char) : List Char :=
  match processLines speed (splitLines content) with
  | none => content
  | some ls => ls.flatten

/-- The first line that starts with `S`, if any. -/
def firstSLine : List (List Char) → Option (List Char)
  | [] => none
  | l :: ls => if startsWithS l then some l else firstSLine ls

/-- A chunk that `splitLines` may produce in non-final position: some text
without interior newlines, terminated by `'\n'`. -/
def TerminatedLine (l : List Char) : Prop :=
  ∃ m, l = m ++ ['\n'] ∧ '\n' ∉ m

/-- The chunk lists in the image of `splitLines`: every chunk is terminated,
except that the final chunk may instead be nonempty and newline-free. -/
def ValidLines : List (List Char) → Prop
  | [] => True
  | l :: ls => (TerminatedLine l ∨ (ls = [] ∧ l ≠ [] ∧ '\n' ∉ l)) ∧ ValidLines ls

/-- `file.endswith(".tap")` (line 45) on a file name: a case-sensitive
suffix test. -/
def isTap (name : List Char) : Bool :=
  List.isSuffixOf ['.', 't', 'a', 'p'] name

/-- The `'*.tap'` glob (line 41) matched against one path component.  On
Windows `pathlib` matches patterns case-insensitively, so a name matches
when its lowercased form ends in `.tap`. -/
def globTap (name : List Char) : Bool :=
  List.isSuffixOf ['.', 't', 'a', 'p'] (name.map Char.toLower)

/-- A directory: its own name, its files (by name) and its subdirectories.
Directory names matter because `rglob` yields matching directories too. -/
inductive DirTree where
  | dir : List Char → List (List Char) → List DirTree → DirTree

/-- The name of a directory. -/
def dirName : DirTree → List Char
  | .dir n _ _ => n

mutual

/-- `sum(1 for _ in pathlib.Path(folder_path).rglob('*.tap'))` (line 41):
the number of paths strictly under the root — files and directories alike —
whose name matches the `'*.tap'` glob.  The root's own name is not a
candidate: `rglob` yields only paths below it. -/
def rglobCount : DirTree → Nat
  | .dir _ fs ds => (fs.filter globTap).length + rglobCountList ds

/-- `rglobCount` over a list of subdirectories: each subdirectory's own
name is also matched against the glob. -/
def rglobCountList : List DirTree → Nat
  | [] => 0
  | d :: ds => (if globTap (dirName d) then 1 else 0) + rglobCount d + rglobCountList ds

end

mutual

/-- The regular files enumerated by `os.walk` (line 43), root's files
first. -/
def walkFiles : DirTree → List (List Char)
  | .dir _ fs ds => fs ++ walkFilesList ds

/-- `walkFiles` concatenated over a list of subdirectories. -/
def walkFilesList : List DirTree → List (List Char)
  | [] => []
  | d :: ds => walkFiles d ++ walkFilesList ds

end

/-- Observable state of a walker run: the processed-files counter, the
number of progress-fraction divisions evaluated, the file names passed to
the rewriter, and the counter values shown by successive progress bars. -/
structure WalkState where
  processed : Nat
  divs : Nat
  invoked : List (List Char)
  trace : List Nat
deriving DecidableEq

/-- The loop of `update_spindle_speed` (lines 43-50) over the enumerated
file names.  For each file ending in `.tap` the rewriter is invoked and the
counter incremented (lines 47-48), and only then is the progress fraction
`processed / total` evaluated (line 49): when `total = 0` that division
raises `ZeroDivisionError`, modelled by `.error` carrying the state reached
after the invocation and increment but before the division. -/
def runWalker (total : Nat) : List (List Char) → WalkState → Except WalkState WalkState
  | [], st => .ok st
  | f :: fs, st =>
    if isTap f then
      if total = 0 then
        .error ⟨st.processed + 1, st.divs, st.invoked ++ [f], st.trace⟩
      else runWalker total fs
        ⟨st.processed + 1, st.divs + 1, st.invoked ++ [f], st.trace ++ [st.processed + 1]⟩
    else runWalker total fs st

/-- `update_spindle_speed` (lines 40-50): count the glob-matched paths,
then walk the tree processing each file ending in `.tap`. -/
def update_spindle_speed (t : DirTree) : Except WalkState WalkState :=
  runWalker (rglobCount t) (walkFiles t) ⟨0, 0, [], []⟩

/-! ### Round-trip lemmas between text and its line decomposition -/

theorem flatten_splitLines (s : List Char) : (splitLines s).flatten = s := by
  induction s with
  | nil => rfl
  | cons c cs ih =>
    rw [splitLines]
    split
    · next h => simp [ih, h]
    · next h =>
      rcases h2 : splitLines cs with _ | ⟨l, ls⟩
      · rw [h2] at ih
        simp at ih
        simp [ih]
      · rw [h2] at ih
        simp at ih ⊢
        simpa using ih

theorem splitLines_term (m rest : List Char) (hm : '\n' ∉ m) :
    splitLines (m ++ '\n' :: rest) = (m ++ ['\n']) :: splitLines rest := by
  induction m with
  | nil => simp [splitLines]
  | cons c m ih =>
    simp only [List.mem_cons, not_or] at hm
    rw [List.cons_append, splitLines, if_neg (Ne.symm hm.1), ih hm.2]
    simp

theorem splitLines_untermed (l : List Char) (h0 : l ≠ []) (hn : '\n' ∉ l) :
    splitLines l = [l] := by
  induction l with
  | nil => exact absurd rfl h0
  | cons c m ih =>
    simp only [List.mem_cons, not_or] at hn
    rcases m with _ | ⟨d, m⟩
    · rw [splitLines, if_neg (Ne.symm hn.1)]
      rfl
    · rw [splitLines, if_neg (Ne.symm hn.1), ih (by simp) hn.2]

theorem splitLines_flatten (ls : List (List Char)) (h : ValidLines ls) :
    splitLines ls.flatten = ls := by
  induction ls with
  | nil => rfl
  | cons l ls ih =>
    simp only [ValidLines] at h
    obtain ⟨h1, h2⟩ := h
    rcases h1 with ⟨m, rfl, hm⟩ | ⟨rfl, hne, hnl⟩
    · have he : ((m ++ ['\n']) :: ls).flatten = m ++ '\n' :: ls.flatten := by simp
      rw [he, splitLines_term m _ hm, ih h2]
    · simp [splitLines_untermed l hne hnl]

theorem validLines_splitLines (s : List Char) : ValidLines (splitLines s) := by
  induction s with
  | nil => trivial
  | cons c cs ih =>
    rw [splitLines]
    split
    · next h =>
      exact ⟨Or.inl ⟨[], rfl, by simp⟩, ih⟩
    · next h =>
      rcases h2 : splitLines cs with _ | ⟨l, ls⟩
      · exact ⟨Or.inr ⟨rfl, by simp, by simpa using Ne.symm h⟩, trivial⟩
      · rw [h2] at ih
        simp only [ValidLines] at ih ⊢
        obtain ⟨hl, hls⟩ := ih
        refine ⟨?_, hls⟩
        rcases hl with ⟨m, rfl, hm⟩ | ⟨rfl, hne, hnl⟩
        · exact Or.inl ⟨c :: m, by simp, by simpa using ⟨fun hc => h hc.symm, hm⟩⟩
        · exact Or.inr ⟨rfl, by simp, by simpa using ⟨fun hc => h hc.symm, hnl⟩⟩

theorem validLines_decomp (pre ls : List (List Char)) (hne : ls ≠ [])
    (h : ValidLines (pre ++ ls)) :
    (∀ p ∈ pre, TerminatedLine p) ∧ ValidLines ls := by
  induction pre with
  | nil => exact ⟨by simp, h⟩
  | cons p pre ih =>
    rw [List.cons_append] at h
    simp only [ValidLines] at h
    obtain ⟨h1, h2⟩ := h
    have hp : TerminatedLine p := by
      rcases h1 with hp | ⟨hnil, _⟩
      · exact hp
      · exact absurd (List.append_eq_nil.1 hnil).2 hne
    obtain ⟨hpre, hls⟩ := ih h2
    refine ⟨?_, hls⟩
    intro q hq
    rcases List.mem_cons.1 hq with rfl | hq'
    · exact hp
    · exact hpre q hq'

theorem validLines_append (pre ls : List (List Char))
    (hpre : ∀ p ∈ pre, TerminatedLine p) (hls : ValidLines ls) :
    ValidLines (pre ++ ls) := by
  induction pre with
  | nil => simpa
  | cons p pre ih =>
    rw [List.cons_append]
    exact ⟨Or.inl (hpre p (by simp)), ih (fun q hq => hpre q (by simp [hq]))⟩

theorem terminatedLine_replacementLine (speed : List Char) (h : '\n' ∉ speed) :
    TerminatedLine (replacementLine speed) := by
  refine ⟨'S' :: (speed ++ [' ', 'M', '3']), by simp [replacementLine], ?_⟩
  intro hc
  rcases List.mem_cons.1 hc with h1 | h1
  · exact absurd h1 (by decide)
  · rcases List.mem_append.1 h1 with h2 | h2
    · exact h h2
    · exact absurd h2 (by decide)

/-! ### Behaviour of the single-pass line transformation -/

theorem processLines_noS (speed : List Char) (ls : List (List Char))
    (h : ∀ l ∈ ls, startsWithS l = false) :
    processLines speed ls = some ls := by
  induction ls with
  | nil => rfl
  | cons l ls ih =>
    rw [processLines, h l (by simp)]
    simp [ih (fun q hq => h q (by simp [hq]))]

theorem processLines_skip (speed : List Char) (pre : List (List Char)) (l : List Char)
    (post : List (List Char)) (hpre : ∀ p ∈ pre, startsWithS p = false)
    (hl : startsWithS l = true) (hm : containsSub (matchText speed) l = true) :
    processLines speed (pre ++ l :: post) = none := by
  induction pre with
  | nil => simp [processLines, hl, hm]
  | cons p pre ih =>
    rw [List.cons_append, processLines, hpre p (by simp)]
    simp [ih (fun q hq => hpre q (by simp [hq]))]

theorem processLines_replace (speed : List Char) (pre : List (List Char)) (l : List Char)
    (post : List (List Char)) (hpre : ∀ p ∈ pre, startsWithS p = false)
    (hl : startsWithS l = true) (hm : containsSub (matchText speed) l = false) :
    processLines speed (pre ++ l :: post) =
      some (pre ++ replacementLine speed :: post) := by
  induction pre with
  | nil => simp [processLines, hl, hm]
  | cons p pre ih =>
    rw [List.cons_append, processLines, hpre p (by simp)]
    simp [ih (fun q hq => hpre q (by simp [hq]))]

theorem processLines_none_iff (speed : List Char) (ls : List (List Char)) :
    processLines speed ls = none ↔
      ∃ l, firstSLine ls = some l ∧ containsSub (matchText speed) l = true := by
  induction ls with
  | nil => simp [processLines, firstSLine]
  | cons l ls ih =>
    by_cases hs : startsWithS l
    · rw [processLines, firstSLine]
      simp only [hs, if_true]
      by_cases hm : containsSub (matchText speed) l
      · simp [hm]
      · simp [hm]
    · rw [processLines, firstSLine]
      simp only [hs, if_false, Bool.false_eq_true, if_neg]
      rw [Option.map_eq_none']
      exact ih

theorem exists_first_decomp (ls : List (List Char)) (h : ∃ l ∈ ls, startsWithS l = true) :
    ∃ pre l post, ls = pre ++ l :: post ∧ (∀ p ∈ pre, startsWithS p = false) ∧
      startsWithS l = true := by
  induction ls with
  | nil => simp at h
  | cons a ls ih =>
    by_cases hs : startsWithS a
    · exact ⟨[], a, ls, by simp, by simp, hs⟩
    · have h' : ∃ l ∈ ls, startsWithS l = true := by
        rcases h with ⟨l, hl, hS⟩
        rcases List.mem_cons.1 hl with rfl | hl'
        · exact absurd hS hs
        · exact ⟨l, hl', hS⟩
      obtain ⟨pre, l, post, hsplit, hpre, hS⟩ := ih h'
      refine ⟨a :: pre, l, post, by rw [hsplit, List.cons_append], ?_, hS⟩
      intro q hq
      rcases List.mem_cons.1 hq with rfl | hq'
      · exact Bool.not_eq_true _ ▸ (by simpa using hs)
      · exact hpre q hq'

theorem firstSLine_decomp (pre : List (List Char)) (l : List Char)
    (post : List (List Char)) (hpre : ∀ p ∈ pre, startsWithS p = false)
    (hl : startsWithS l = true) :
    firstSLine (pre ++ l :: post) = some l := by
  induction pre with
  | nil => simp [firstSLine, hl]
  | cons p pre ih =>
    rw [List.cons_append, firstSLine, hpre p (by simp)]
    simp [ih (fun q hq => hpre q (by simp [hq]))]

theorem matchText_append : ∀ speed : List Char,
    matchText speed ++ ['M', '3', '\n'] = replacementLine speed := by
  intro speed
  simp [matchText, replacementLine]

theorem containsSub_replacementLine (speed : List Char) :
    containsSub (matchText speed) (replacementLine speed) = true := by
  rw [replacementLine, containsSub]
  have hp : List.isPrefixOf (matchText speed)
      ('S' :: (speed ++ [' ', 'M', '3', '\n'])) = true := by
    rw [ List.isPrefixOf_iff_prefix]
    refine ⟨['M', '3', '\n'], ?_⟩
    rw [matchText_append, replacementLine]
  rw [hp, Bool.true_or]

theorem startsWithS_replacementLine (speed : List Char) :
    startsWithS (replacementLine speed) = true := by
  rw [replacementLine, startsWithS]
  simp

/-! ### Content-level description of `update_file_spindle_speed` -/

theorem update_of_skip (speed content : List Char)
    (h : processLines speed (splitLines content) = none) :
    update_file_spindle_speed speed content = content := by
  rw [update_file_spindle_speed, h]

theorem update_of_noS (speed content : List Char)
    (h : ∀ l ∈ splitLines content, startsWithS l = false) :
    update_file_spindle_speed speed content = content := by
  rw [update_file_spindle_speed, processLines_noS speed _ h]
  exact flatten_splitLines content

theorem update_of_replace (speed content : List Char) (pre : List (List Char))
    (l : List Char) (post : List (List Char))
    (hsplit : splitLines content = pre ++ l :: post)
    (hpre : ∀ p ∈ pre, startsWithS p = false) (hl : startsWithS l = true)
    (hm : containsSub (matchText speed) l = false) :
    update_file_spindle_speed speed content =
      pre.flatten ++ replacementLine speed ++ post.flatten := by
  rw [update_file_spindle_speed, hsplit, processLines_replace speed pre l post hpre hl hm]
  simp

theorem splitLines_update_of_replace (speed content : List Char)
    (pre : List (List Char)) (l : List Char) (post : List (List Char))
    (hn : '\n' ∉ speed) (hsplit : splitLines content = pre ++ l :: post)
    (hpre : ∀ p ∈ pre, startsWithS p = false) (hl : startsWithS l = true)
    (hm : containsSub (matchText speed) l = false) :
    splitLines (update_file_spindle_speed speed content) =
      pre ++ replacementLine speed :: post := by
  have hv : ValidLines (pre ++ l :: post) := hsplit ▸ validLines_splitLines content
  obtain ⟨hterm, hpost⟩ := validLines_decomp pre (l :: post) (by simp) hv
  have hv2 : ValidLines (pre ++ replacementLine speed :: post) := by
    refine validLines_append pre _ hterm ?_
    exact ⟨Or.inl (terminatedLine_replacementLine speed hn), hpost.2⟩
  have he : update_file_spindle_speed speed content =
      (pre ++ replacementLine speed :: post).flatten := by
    rw [update_of_replace speed content pre l post hsplit hpre hl hm]
    simp
  rw [he, splitLines_flatten _ hv2]

/-! ### Behaviour of the directory walker -/

/-- Counter values shown by `k` successive progress bars that start after
`p` files have already been processed. -/
def traceFrom (p : Nat) : Nat → List Nat
  | 0 => []
  | k + 1 => (p + 1) :: traceFrom (p + 1) k

theorem traceFrom_le (p k : Nat) : ∀ q ∈ traceFrom p k, q ≤ p + k := by
  induction k generalizing p with
  | zero => simp [traceFrom]
  | succ k ih =>
    intro q hq
    rw [traceFrom] at hq
    rcases List.mem_cons.1 hq with rfl | hq'
    · omega
    · have := ih (p + 1) q hq'
      omega

theorem runWalker_spec (total : Nat) (files : List (List Char)) (st : WalkState)
    (h : total = 0 → files.filter isTap = []) :
    runWalker total files st = .ok
      ⟨st.processed + (files.filter isTap).length,
       st.divs + (files.filter isTap).length,
       st.invoked ++ files.filter isTap,
       st.trace ++ traceFrom st.processed (files.filter isTap).length⟩ := by
  induction files generalizing st with
  | nil => simp [runWalker, traceFrom]
  | cons f fs ih =>
    by_cases ht : isTap f
    · have htot : total ≠ 0 := by
        intro h0
        have hfil := h h0
        rw [List.filter_cons, if_pos ht] at hfil
        exact absurd hfil (by simp)
      rw [runWalker]
      simp only [ht, if_true, if_neg htot]
      rw [ih _ (fun h0 => absurd h0 htot)]
      rw [List.filter_cons, if_pos ht]
      simp only [Except.ok.injEq, WalkState.mk.injEq, List.length_cons, traceFrom]
      refine ⟨by omega, by omega, by simp, by simp⟩
    · rw [runWalker]
      simp only [ht, if_false, Bool.false_eq_true]
      rw [List.filter_cons, if_neg (by simpa using ht)]
      refine ih st (fun h0 => ?_)
      have hfil := h h0
      rwa [List.filter_cons, if_neg (by simpa using ht)] at hfil

theorem globTap_of_isTap (f : List Char) (h : isTap f = true) :
    globTap f = true := by
  rw [isTap, List.isSuffixOf_iff_suffix] at h
  obtain ⟨pre, hpre⟩ := h
  rw [globTap, List.isSuffixOf_iff_suffix]
  refine ⟨pre.map Char.toLower, ?_⟩
  have hfix : List.map Char.toLower ['.', 't', 'a', 'p'] = ['.', 't', 'a', 'p'] := by
    decide
  rw [← hfix, ← List.map_append, hpre]

theorem length_filter_isTap_le (fs : List (List Char)) :
    (fs.filter isTap).length ≤ (fs.filter globTap).length := by
  induction fs with
  | nil => simp
  | cons f fs ih =>
    rw [List.filter_cons, List.filter_cons]
    by_cases h : isTap f
    · rw [if_pos h, if_pos (globTap_of_isTap f h)]
      simpa using ih
    · rw [if_neg (by simpa using h)]
      split
      · simp only [List.length_cons]
        exact Nat.le_succ_of_le ih
      · exact ih

mutual

theorem walkTap_le_rglobCount (t : DirTree) :
    ((walkFiles t).filter isTap).length ≤ rglobCount t := by
  cases t with
  | dir n fs ds =>
    rw [walkFiles, rglobCount, List.filter_append, List.length_append]
    have h1 := length_filter_isTap_le fs
    have h2 := walkTapList_le_rglobCountList ds
    omega

theorem walkTapList_le_rglobCountList (ds : List DirTree) :
    ((walkFilesList ds).filter isTap).length ≤ rglobCountList ds := by
  cases ds with
  | nil => simp [walkFilesList, rglobCountList]
  | cons d ds =>
    rw [walkFilesList, rglobCountList, List.filter_append, List.length_append]
    have h1 := walkTap_le_rglobCount d
    have h2 := walkTapList_le_rglobCountList ds
    by_cases hg : globTap (dirName d)
    · rw [if_pos hg]
      omega
    · rw [if_neg hg]
      omega

end

/-! ### Claim theorems -/

/-- C1 (amended): the rewrite aborts without writing if and only if the
first line starting with `S` contains `S<speed> ` — the speed followed by a
single space — as a substring.  The match-check text `"S{} "` is a proper
prefix of the replacement text `"S{} M3\n"`, not the canonical directive
text `S<speed> M3` the claim states. -/
theorem C1_skip_iff_matchText (speed content : List Char) :
    processLines speed (splitLines content) = none ↔
      ∃ l, firstSLine (splitLines content) = some l ∧
        containsSub (matchText speed) l = true :=
  processLines_none_iff speed (splitLines content)

/-- C1 counterexample: with target speed `1000`, the file `"S1000 F2\n"` is
skipped (the operation aborts without writing) although its first and only
`S` line does not contain the canonical directive text `"S1000 M3"` as a
substring, refuting the claimed equivalence. -/
theorem C1_counterexample :
    processLines "1000".data (splitLines "S1000 F2\n".data) = none ∧
    firstSLine (splitLines "S1000 F2\n".data) = some "S1000 F2\n".data ∧
    containsSub "S1000 M3".data "S1000 F2\n".data = false := by
  decide

/-- C2 (amended): for every newline-free target speed and every file with at
least one line starting with `S`, if the operation does not abort then the
line list decomposes around the first `S` line, which is the only line that
changes: lines before it and after it are byte-identical, and it is replaced
by the (different) canonical replacement line. -/
theorem C2_single_edit (speed content : List Char) (hn : '\n' ∉ speed)
    (hS : ∃ l ∈ splitLines content, startsWithS l = true)
    (hns : processLines speed (splitLines content) ≠ none) :
    ∃ pre l post,
      splitLines content = pre ++ l :: post ∧
      (∀ p ∈ pre, startsWithS p = false) ∧
      startsWithS l = true ∧
      splitLines (update_file_spindle_speed speed content) =
        pre ++ replacementLine speed :: post ∧
      replacementLine speed ≠ l := by
  obtain ⟨pre, l, post, hsplit, hpre, hl⟩ := exists_first_decomp _ hS
  have hm : containsSub (matchText speed) l = false := by
    by_contra hc
    refine hns ?_
    rw [hsplit]
    exact processLines_skip speed pre l post hpre hl (by simpa using hc)
  refine ⟨pre, l, post, hsplit, hpre, hl,
    splitLines_update_of_replace speed content pre l post hn hsplit hpre hl hm, ?_⟩
  intro he
  have ht : containsSub (matchText speed) l = true :=
    he ▸ containsSub_replacementLine speed
  rw [ht] at hm
  cases hm

/-- C2 witness: the amended single-edit property at target speed `1000` on
the file `"G1 X1\nS500\nG1 Y2\n"`. -/
theorem C2_witness :
    ∃ pre l post,
      splitLines "G1 X1\nS500\nG1 Y2\n".data = pre ++ l :: post ∧
      (∀ p ∈ pre, startsWithS p = false) ∧
      startsWithS l = true ∧
      splitLines (update_file_spindle_speed "1000".data "G1 X1\nS500\nG1 Y2\n".data) =
        pre ++ replacementLine "1000".data :: post ∧
      replacementLine "1000".data ≠ l :=
  C2_single_edit "1000".data "G1 X1\nS500\nG1 Y2\n".data (by decide)
    ⟨"S500\n".data, by decide, by decide⟩ (by decide)

/-- C2 counterexample: `"S1000 M3\n"` contains a line starting with `S`, yet
rewriting it with target speed `1000` changes zero lines (the skip path),
not exactly one; and with the non-newline-free speed `"1\n2"` the rewrite of
`"S5\n"` does not even preserve the number of lines, so no single line can
carry the whole difference. -/
theorem C2_counterexample :
    (∃ l ∈ splitLines "S1000 M3\n".data, startsWithS l = true) ∧
    update_file_spindle_speed "1000".data "S1000 M3\n".data = "S1000 M3\n".data ∧
    (splitLines (update_file_spindle_speed "1\n2".data "S5\n".data)).length ≠
      (splitLines "S5\n".data).length := by
  decide

/-- C3 (amended): for every newline-free target speed the rewrite is
idempotent on file contents — applying it a second time to the result of a
first application changes nothing. -/
theorem C3_idempotent (speed content : List Char) (hn : '\n' ∉ speed) :
    update_file_spindle_speed speed (update_file_spindle_speed speed content) =
      update_file_spindle_speed speed content := by
  rcases hres : processLines speed (splitLines content) with _ | ls
  · rw [update_of_skip speed content hres, update_of_skip speed content hres]
  · by_cases hS : ∃ l ∈ splitLines content, startsWithS l = true
    · obtain ⟨pre, l, post, hsplit, hpre, hl⟩ := exists_first_decomp _ hS
      have hm : containsSub (matchText speed) l = false := by
        by_contra hc
        rw [hsplit, processLines_skip speed pre l post hpre hl (by simpa using hc)] at hres
        cases hres
      have hsplit2 :=
        splitLines_update_of_replace speed content pre l post hn hsplit hpre hl hm
      have hskip2 : processLines speed
          (splitLines (update_file_spindle_speed speed content)) = none := by
        rw [hsplit2]
        exact processLines_skip speed pre (replacementLine speed) post hpre
          (startsWithS_replacementLine speed) (containsSub_replacementLine speed)
      exact update_of_skip speed _ hskip2
    · push_neg at hS
      have hall : ∀ l ∈ splitLines content, startsWithS l = false := by
        intro l hl
        simpa using hS l hl
      rw [update_of_noS speed content hall, update_of_noS speed content hall]

/-- C3 witness: idempotence at target speed `1000` on `"G1 X1\nS500\n"`. -/
theorem C3_witness :
    update_file_spindle_speed "1000".data
        (update_file_spindle_speed "1000".data "G1 X1\nS500\n".data) =
      update_file_spindle_speed "1000".data "G1 X1\nS500\n".data :=
  C3_idempotent "1000".data "G1 X1\nS500\n".data (by decide)

/-- C3 counterexample: with the target speed `"1\n2"` (a speed containing a
newline, which the interactive `input()` of the program can never produce),
a second rewrite of `"S5\n"` changes the content again, so the operation is
not idempotent for arbitrary speed strings. -/
theorem C3_counterexample :
    update_file_spindle_speed "1\n2".data
        (update_file_spindle_speed "1\n2".data "S5\n".data) ≠
      update_file_spindle_speed "1\n2".data "S5\n".data := by
  decide

/-- C4: whenever the operation does not abort and the file has a first line
starting with `S`, the resulting content is the unchanged prefix lines, then
exactly the canonical replacement line `S<speed> M3` with a trailing
newline, then the unchanged suffix lines — the candidate line's original
content is discarded; and concretely `"G1 X1\nS500\nG1 Y2\n"` with speed
`1000` becomes `"G1 X1\nS1000 M3\nG1 Y2\n"`. -/
theorem C4_replacement_form :
    (∀ speed content pre l post,
      splitLines content = pre ++ l :: post →
      (∀ p ∈ pre, startsWithS p = false) →
      startsWithS l = true →
      processLines speed (splitLines content) ≠ none →
      update_file_spindle_speed speed content =
        pre.flatten ++ replacementLine speed ++ post.flatten) ∧
    update_file_spindle_speed "1000".data "G1 X1\nS500\nG1 Y2\n".data =
      "G1 X1\nS1000 M3\nG1 Y2\n".data := by
  constructor
  · intro speed content pre l post hsplit hpre hl hns
    have hm : containsSub (matchText speed) l = false := by
      by_contra hc
      refine hns ?_
      rw [hsplit]
      exact processLines_skip speed pre l post hpre hl (by simpa using hc)
    exact update_of_replace speed content pre l post hsplit hpre hl hm
  · decide

/-- C4 witness: the universal part applied to the concrete scenario. -/
theorem C4_witness :
    update_file_spindle_speed "1000".data "G1 X1\nS500\nG1 Y2\n".data =
      ["G1 X1\n".data].flatten ++ replacementLine "1000".data ++
        ["G1 Y2\n".data].flatten :=
  C4_replacement_form.1 "1000".data "G1 X1\nS500\nG1 Y2\n".data
    ["G1 X1\n".data] "S500\n".data ["G1 Y2\n".data]
    (by decide) (by decide) (by decide) (by decide)

/-- C5 (amended): for every newline-free target speed, the rewrite preserves
the number of lines of the file. -/
theorem C5_line_count (speed content : List Char) (hn : '\n' ∉ speed) :
    (splitLines (update_file_spindle_speed speed content)).length =
      (splitLines content).length := by
  rcases hres : processLines speed (splitLines content) with _ | ls
  · rw [update_of_skip speed content hres]
  · by_cases hS : ∃ l ∈ splitLines content, startsWithS l = true
    · obtain ⟨pre, l, post, hsplit, hpre, hl⟩ := exists_first_decomp _ hS
      have hm : containsSub (matchText speed) l = false := by
        by_contra hc
        rw [hsplit, processLines_skip speed pre l post hpre hl (by simpa using hc)] at hres
        cases hres
      rw [splitLines_update_of_replace speed content pre l post hn hsplit hpre hl hm,
        hsplit]
      simp
    · push_neg at hS
      have hall : ∀ l ∈ splitLines content, startsWithS l = false := by
        intro l hl
        simpa using hS l hl
      rw [update_of_noS speed content hall]

/-- C5 witness: line-count preservation at target speed `1000` on
`"G1 X1\nS500\nG1 Y2\n"`. -/
theorem C5_witness :
    (splitLines (update_file_spindle_speed "1000".data "G1 X1\nS500\nG1 Y2\n".data)).length =
      (splitLines "G1 X1\nS500\nG1 Y2\n".data).length :=
  C5_line_count "1000".data "G1 X1\nS500\nG1 Y2\n".data (by decide)

/-- C5 counterexample: with the newline-containing target speed `"1\n2"`
(impossible to enter through the program's `input()` prompt), rewriting
`"S5\n"` produces two lines where the input had one. -/
theorem C5_counterexample :
    (splitLines (update_file_spindle_speed "1\n2".data "S5\n".data)).length ≠
      (splitLines "S5\n".data).length := by
  decide

/-- C6: a file in which no line starts with `S` is byte-identical after the
rewrite operation, for every target speed. -/
theorem C6_no_directive (speed content : List Char)
    (h : ∀ l ∈ splitLines content, startsWithS l = false) :
    update_file_spindle_speed speed content = content :=
  update_of_noS speed content h

/-- C6 witness: the no-directive file `"G1 X1\nG1 Y2\n"` is unchanged. -/
theorem C6_witness :
    update_file_spindle_speed "1000".data "G1 X1\nG1 Y2\n".data =
      "G1 X1\nG1 Y2\n".data :=
  C6_no_directive "1000".data "G1 X1\nG1 Y2\n".data (by decide)

/-- C7 (amended): for a directory tree with no file ending in `.tap` the
walker completes normally: the processed count stays `0`, no file is passed
to the rewriter, no progress bar is shown and the progress-fraction
division is never evaluated — whatever the precomputed total is.  The total
itself need not be `0`: the recursive glob of line 41 also counts
directories named `*.tap` and, case-insensitively, names such as `A.TAP`
that the `endswith(".tap")` test of line 45 rejects. -/
theorem C7_no_tap_files (t : DirTree) (h : (walkFiles t).filter isTap = []) :
    update_spindle_speed t = .ok ⟨0, 0, [], []⟩ := by
  rw [update_spindle_speed, runWalker_spec _ _ _ (fun _ => h), h]
  rfl

/-- C7 witness: a tree with no `.tap` file but with a directory named
`x.tap`, so the precomputed total is nonzero and the run still completes
with no division evaluated. -/
theorem C7_witness :
    update_spindle_speed
        (.dir "root".data ["a.txt".data] [.dir "x.tap".data [] []]) =
      .ok ⟨0, 0, [], []⟩ :=
  C7_no_tap_files (.dir "root".data ["a.txt".data] [.dir "x.tap".data [] []])
    (by decide)

/-- C7 counterexample: a directory named `x.tap` and a file named `A.TAP`
are both matched by the recursive glob of line 41 although neither is a
file ending in `.tap`, so this tree with zero `.tap` files has a
precomputed total of `2`, refuting the claimed `total = 0`. -/
theorem C7_counterexample :
    (walkFiles (.dir "root".data ["A.TAP".data] [.dir "x.tap".data [] []])).filter isTap
      = [] ∧
    rglobCount (.dir "root".data ["A.TAP".data] [.dir "x.tap".data [] []]) = 2 := by
  decide

/-- C8: on every directory tree the walker terminates having invoked the
file rewriter on exactly the walked files whose name ends in `.tap` — the
invocation list equals the `.tap`-filtered walk list and the processed
counter counts precisely those invocations — so every file with another
extension is ignored, at any nesting depth. -/
theorem C8_traversal (t : DirTree) :
    ∃ st, update_spindle_speed t = .ok st ∧
      st.invoked = (walkFiles t).filter isTap ∧
      st.processed = st.invoked.length := by
  have h0 : rglobCount t = 0 → (walkFiles t).filter isTap = [] := by
    intro h
    have hle := walkTap_le_rglobCount t
    rw [h] at hle
    exact List.length_eq_zero.1 (Nat.le_zero.1 hle)
  refine ⟨_, runWalker_spec (rglobCount t) (walkFiles t) ⟨0, 0, [], []⟩ h0, ?_, ?_⟩
  · simp
  · simp

/-- C9 (amended): on every directory tree the walker terminates; the
processed count never exceeds the precomputed total and neither does any
counter value shown during the run, and on completion the processed count
equals the number of walked files ending in `.tap` — which can be strictly
below the total, because the glob of line 41 also counts directories named
`*.tap` and case-variant file names. -/
theorem C9_progress (t : DirTree) :
    ∃ st, update_spindle_speed t = .ok st ∧
      st.processed = ((walkFiles t).filter isTap).length ∧
      st.processed ≤ rglobCount t ∧
      ∀ q ∈ st.trace, q ≤ rglobCount t := by
  have h0 : rglobCount t = 0 → (walkFiles t).filter isTap = [] := by
    intro h
    have hle := walkTap_le_rglobCount t
    rw [h] at hle
    exact List.length_eq_zero.1 (Nat.le_zero.1 hle)
  refine ⟨_, runWalker_spec (rglobCount t) (walkFiles t) ⟨0, 0, [], []⟩ h0, ?_, ?_, ?_⟩
  · simp
  · simpa using walkTap_le_rglobCount t
  · intro q hq
    simp only [List.nil_append] at hq
    have h1 := traceFrom_le 0 ((walkFiles t).filter isTap).length q hq
    have h2 := walkTap_le_rglobCount t
    omega

/-- C9 counterexample: on a tree whose only glob match is the directory
`sub.tap`, the traversal completes with processed count `0` while the
precomputed total is `1`, refuting "processed equals total when the
traversal completes". -/
theorem C9_counterexample :
    update_spindle_speed (.dir "root".data [] [.dir "sub.tap".data [] []]) =
      .ok ⟨0, 0, [], []⟩ ∧
    rglobCount (.dir "root".data [] [.dir "sub.tap".data [] []]) = 1 := by
  exact ⟨rfl, by decide⟩

/-- C10: the replacement line always ends with a newline character, whatever
the target speed; concretely, rewriting the file `"S500"` — whose candidate
line is final and unterminated — with speed `1000` yields `"S1000 M3\n"`,
which ends with a newline the original file did not have. -/
theorem C10_trailing_newline :
    (∀ speed : List Char, (replacementLine speed).getLast? = some '\n') ∧
    update_file_spindle_speed "1000".data "S500".data = "S1000 M3\n".data ∧
    "S500".data.getLast? ≠ some '\n' ∧
    ("S1000 M3\n".data).getLast? = some '\n' := by
  refine ⟨?_, by decide, by decide, by decide⟩
  intro speed
  have he : replacementLine speed = ('S' :: (speed ++ [' ', 'M', '3'])) ++ ['\n'] := by
    simp [replacementLine]
  rw [he, List.getLast?_concat]
